import Mathlib

/-!
Verification development for the `plentimon` d10 dice-pool roller
(`src/roller/roller.ts`).

The TypeScript source is shallowly embedded as follows.

* JavaScript values that appear in the die sequences of this program are
  either numbers or the boolean `false` (the sentinel the reroll engine
  stores in a "did not reroll" slot).  They are modelled by `JVal`;
  lodash `compact` keeps the truthy ones.
* The entropy source behind lodash `sample` is modelled as an infinite
  stream `g : Nat -> Nat` of raw draws together with a cursor into that
  stream; `sample l d` picks index `d % l.length` (every index is
  reachable for some draw, and an empty list yields `none`, exactly the
  `undefined` case of lodash).  Each call of `d10` consumes one draw.
* Thrown JavaScript errors are modelled with `Except RErr`; the two
  error classes of the design are the constructors of `RErr`.
* The recursive reroll engine has no structural termination measure
  (its recursion is governed by fresh random draws), so it is embedded
  with an explicit fuel parameter; `none` means the fuel was exhausted,
  `some` means the original function returned (normally or by throwing).
-/

set_option autoImplicit false

namespace Plentimon

/-- Error taxonomy of the design: `invalidArgument` for every input
validation throw, `invariantViolation` for the defensive throw inside
`d10` ("dice roll cannot return nil values!"). -/
inductive RErr where
  | invalidArgument
  | invariantViolation
deriving DecidableEq, Repr

/-- A JavaScript value occurring in the die sequences of this program:
a number, or a boolean (the reroll engine fills non-rerolled slots with
`false`; C7 also needs a non-numeric element).  Die faces are `Int`. -/
inductive JVal where
  | num (n : Int)
  | bool (b : Bool)
deriving DecidableEq, Repr

/-- JavaScript truthiness restricted to `JVal`: a number is truthy iff
it is nonzero, a boolean is truthy iff it is `true`. -/
def truthy : JVal → Bool
  | .num n => n != 0
  | .bool b => b

/-- lodash `compact`: drop the falsy entries of a list. -/
def compact (l : List JVal) : List JVal := l.filter truthy

/-- lodash `range(a, b)`: the integers `a, a+1, ..., b-1` (empty when
`b ≤ a`). -/
def lrange (a b : Int) : List Int :=
  (List.range (b - a).toNat).map (fun k => a + (k : Int))

/-- lodash `sample(l)` under a raw draw `d` of the uniform source: the
element at index `d % l.length`, and `none` (JS `undefined`) when the
list is empty. -/
def sample (l : List Int) (d : Nat) : Option Int := l.get? (d % l.length)

/-- Embedding of `d10` at one raw draw `d` of the uniform source:
`const roll = sample(range(1, 10)); const result = (roll) ? roll : -1;
if (result === -1) throw ...; else return result;`. -/
def d10E (d : Nat) : Except RErr Int :=
  let roll : Option Int := sample (lrange 1 10) d
  let result : Int :=
    match roll with
    | some r => if r = 0 then -1 else r
    | none => -1
  if result = -1 then .error .invariantViolation else .ok result

/-- The value `d10` returns on draw `d` (its error branch is proved
unreachable in `d10E_eq_ok`, so downstream code is embedded directly on
this value). -/
def d10v (d : Nat) : Int :=
  match d10E d with
  | .ok v => v
  | .error _ => -1

/-- Configuration of `countSuccesses` with the defaults of the source:
`{ targetNumber = 7, double = 10, autosuccesses = 0 }`.  The thresholds
are integers, so the source's `isNumber` checks on them always pass. -/
structure SucCfg where
  targetNumber : Int := 7
  double : Int := 10
  autosuccesses : Int := 0
deriving DecidableEq, Repr

/-- The per-die summand of the reducer in `countSuccesses`:
`r >= targetNumber ? (r >= double ? 2 : 1) : 0`. -/
def codeScore (tn dbl r : Int) : Int :=
  if tn ≤ r then (if dbl ≤ r then 2 else 1) else 0

/-- The lodash `reduce` of `countSuccesses`, with a thrown error
aborting the fold: each element must be a number (`isNumber`) lying in
`(0, 10]` (`r <= 0 || r > 10` throws), and a valid element adds its
`codeScore`. -/
def csFold (cfg : SucCfg) : Int → List JVal → Except RErr Int
  | acc, [] => .ok acc
  | acc, v :: vs =>
    match v with
    | .num r =>
      if r ≤ 0 ∨ 10 < r then .error .invalidArgument
      else csFold cfg (acc + codeScore cfg.targetNumber cfg.double r) vs
    | _ => .error .invalidArgument

/-- Embedding of `countSuccesses` on a sequence input (the callers in
this repository always pass arrays; the single-number overload is the
one-element case): the reduce starts at `autosuccesses`. -/
def countSuccessesL (l : List JVal) (cfg : SucCfg) : Except RErr Int :=
  csFold cfg cfg.autosuccesses l

/-- Modelled from the spec: the per-die contribution as the spec words
it, cases taken in the order they are listed ("add 0 if r <
targetNumber, add 1 if targetNumber <= r < double, add 2 if r >=
double"), for comparison with `codeScore`. -/
def specContribution (tn dbl r : Int) : Int :=
  if r < tn then 0
  else if tn ≤ r ∧ r < dbl then 1
  else if dbl ≤ r then 2
  else 0

/-- A sequence element that `countSuccesses` accepts: a number in the
half-open range `(0, 10]`. -/
def validFace : JVal → Bool
  | .num n => !(n ≤ 0 || 10 < n)
  | .bool _ => false

/-- The termination check of `reroll`:
`every(times(10, i => rerollSet.has(i + 1)))`, i.e. the reroll set
contains every face `1..10` (building the `Set` deduplicates but does
not change membership). -/
def coversAll (ra : List Int) : Bool :=
  (List.range 10).all (fun i => ra.contains ((i : Int) + 1))

/-- Whether a slot of the coerced roll array triggers a reroll:
`rerollArray.includes(r)`.  `includes` compares with SameValueZero, so a
boolean sentinel never equals an integer face. -/
def qualifies (ra : List Int) : JVal → Bool
  | .num n => ra.contains n
  | .bool _ => false

/-- One pass of the reroll engine:
`map(rollArray, r => rerollArray.includes(r) ? d10() : false)`, with the
entropy cursor `i` advanced once per fresh `d10()` call (lodash `map`
visits the list left to right). -/
def rerollPass (g : Nat → Nat) (ra : List Int) : List JVal → Nat → List JVal × Nat
  | [], i => ([], i)
  | v :: vs, i =>
    if qualifies ra v then
      let rest := rerollPass g ra vs (i + 1)
      (JVal.num (d10v (g i)) :: rest.1, rest.2)
    else
      let rest := rerollPass g ra vs i
      (JVal.bool false :: rest.1, rest.2)

/-- Embedding of `reroll` on a sequence input, with explicit fuel for
the cascade recursion (`none` = fuel exhausted; the original function
has no bound).  In source order: the `rerollArray` validation (its
element `isNumber` checks are vacuous over `List Int`), the coercion and
`compact` of `roll`, the `isEmpty` early return, the reroll pass, the
cascade recursion (which hard-codes `append: true` and, by omission,
`cascade: true`), and the final `compact` of the appended sequence. -/
def rerollF (g : Nat → Nat) (ra : List Int) :
    Nat → List JVal → Nat → Bool → Bool → Option (Except RErr (List JVal × Nat))
  | 0, _, _, _, _ => none
  | fuel + 1, roll, i, append, cascade =>
    if coversAll ra then some (.error .invalidArgument)
    else
      let rollArray := compact roll
      if rollArray = [] then some (.ok ([], i))
      else
        let p := rerollPass g ra rollArray i
        match (if cascade then rerollF g ra fuel p.1 p.2 true true else some (.ok p)) with
        | none => none
        | some (.error e) => some (.error e)
        | some (.ok (rr, i3)) =>
          some (.ok (compact ((if append then rollArray else []) ++ rr), i3))

/-- `reroll` terminates on an input when some amount of fuel makes the
embedding return (either a value or a thrown error). -/
def rerollTerminates (g : Nat → Nat) (ra : List Int) (roll : List JVal)
    (i : Nat) (append cascade : Bool) : Prop :=
  ∃ fuel, (rerollF g ra fuel roll i append cascade).isSome = true

/-- The draw stream on which every `d10` call yields the face 1. -/
def gOnes : Nat → Nat := fun _ => 0

/-- The draw stream on which every `d10` call yields the face 2. -/
def gTwos : Nat → Nat := fun _ => 1

/-- The draw stream whose first `d10` call yields face 2 and whose every
later call yields face 1. -/
def gTwoThenOnes : Nat → Nat := fun k => if k = 0 then 1 else 0

/-- `times(numDice, d10)`: `n` sequential `d10` calls starting at cursor
`i`, propagating a thrown error (none can occur, by `d10E_eq_ok`, but
the embedding keeps the plumbing of the source). -/
def rollTimes (g : Nat → Nat) : Nat → Nat → Except RErr (List Int)
  | _, 0 => .ok []
  | i, n + 1 =>
    match d10E (g i) with
    | .error e => .error e
    | .ok v =>
      match rollTimes g (i + 1) n with
      | .error e => .error e
      | .ok vs => .ok (v :: vs)

/-- Embedding of `rollDice`: rejects a negative `numDice` (the
`isNumber` half of the check is vacuous over `Int`), then draws
`numDice` dice, returning them with the advanced cursor. -/
def rollDiceE (g : Nat → Nat) (i : Nat) (numDice : Int) : Except RErr (List Int × Nat) :=
  if numDice < 0 then .error .invalidArgument
  else
    match rollTimes g i numDice.toNat with
    | .error e => .error e
    | .ok vs => .ok (vs, i + numDice.toNat)

/-- Configuration of `roll` with the defaults of the source
(`targetNumber` has no default in `roll` itself; the 7 comes from
`countSuccesses`, which receives `undefined` when the caller omits
it — the composite behavior is a default of 7). -/
structure RollCfg where
  targetNumber : Int := 7
  double : Int := 10
  rerollArray : List Int := []
  cascade : Bool := true
  autosuccesses : Int := 0
deriving Repr

/-- The record `roll` returns. -/
structure RollResult where
  result : List JVal
  diceRolled : Nat
  successes : Int
  numDice : Int
  botch : Bool
deriving DecidableEq, Repr

/-- Embedding of `roll`, in source order: `theRoll = rollDice(numDice)`;
`result = reroll(theRoll, {rerollArray, append: true, cascade})`;
`successes = countSuccesses(theRoll, {targetNumber, double,
autosuccesses})`; `botch = successes === 0 && result.includes(1)`
(note: `result`, the post-reroll sequence, not `theRoll`). -/
def rollE (g : Nat → Nat) (fuel : Nat) (numDice : Int) (cfg : RollCfg) :
    Option (Except RErr RollResult) :=
  match rollDiceE g 0 numDice with
  | .error e => some (.error e)
  | .ok (theRoll, i1) =>
    match rerollF g cfg.rerollArray fuel (theRoll.map JVal.num) i1 true cfg.cascade with
    | none => none
    | some (.error e) => some (.error e)
    | some (.ok (result, _)) =>
      match countSuccessesL (theRoll.map JVal.num)
          ⟨cfg.targetNumber, cfg.double, cfg.autosuccesses⟩ with
      | .error e => some (.error e)
      | .ok s =>
        some (.ok ⟨result, result.length, s, numDice,
          (s == 0) && result.contains (JVal.num 1)⟩)

end Plentimon

namespace Plentimon

theorem lrange_one_ten : lrange 1 10 = [1, 2, 3, 4, 5, 6, 7, 8, 9] := by
  decide

theorem d10E_eq_ok (d : Nat) : d10E d = .ok (1 + ((d % 9 : Nat) : Int)) := by
  have h9 : d % 9 < 9 := Nat.mod_lt _ (by decide)
  have hs : sample (lrange 1 10) d = some (1 + ((d % 9 : Nat) : Int)) := by
    unfold sample
    rw [lrange_one_ten]
    show List.get? _ (d % 9) = _
    interval_cases h : (d % 9) <;> simp
  unfold d10E
  rw [hs]
  have h0 : ¬ ((1 : Int) + ((d % 9 : Nat) : Int) = 0) := by omega
  have h1 : ¬ ((1 : Int) + ((d % 9 : Nat) : Int) = -1) := by omega
  simp only [if_neg h0, if_neg h1]

theorem d10v_eq (d : Nat) : d10v d = 1 + ((d % 9 : Nat) : Int) := by
  unfold d10v
  rw [d10E_eq_ok]

theorem codeScore_eq_specContribution (tn dbl r : Int) :
    codeScore tn dbl r = specContribution tn dbl r := by
  unfold codeScore specContribution
  split_ifs <;> omega

theorem csFold_valid (cfg : SucCfg) (l : List Int) :
    ∀ acc : Int, (∀ r ∈ l, 0 < r ∧ r ≤ 10) →
      csFold cfg acc (l.map JVal.num)
        = .ok (acc + (l.map (codeScore cfg.targetNumber cfg.double)).sum) := by
  induction l with
  | nil => intro acc _; simp [csFold]
  | cons r rs ih =>
    intro acc hv
    have hr := hv r (List.mem_cons_self r rs)
    have hnot : ¬ (r ≤ 0 ∨ 10 < r) := by omega
    have hrs : ∀ x ∈ rs, 0 < x ∧ x ≤ 10 := fun x hx => hv x (List.mem_cons_of_mem _ hx)
    simp only [List.map_cons, csFold, if_neg hnot]
    rw [ih _ hrs]
    simp [add_assoc]

/-- C4: on a sequence of faces each in `(0, 10]`, `countSuccesses` returns
the sum that starts at `autosuccesses` and adds, per face, the
contribution the spec describes (its cases read in the order the spec
lists them); moreover when `double` is set below `targetNumber`, every
counted die (`targetNumber ≤ r`) scores 2, and the configuration is
accepted rather than rejected (the result is `.ok`, not an error). -/
theorem countSuccesses_formula (l : List Int) (tn dbl autos : Int)
    (hv : ∀ r ∈ l, 0 < r ∧ r ≤ 10) :
    countSuccessesL (l.map JVal.num) ⟨tn, dbl, autos⟩
        = .ok (autos + (l.map (specContribution tn dbl)).sum)
    ∧ (dbl < tn → ∀ r ∈ l, tn ≤ r → codeScore tn dbl r = 2) := by
  constructor
  · have h := csFold_valid ⟨tn, dbl, autos⟩ l autos hv
    have hfun : codeScore tn dbl = specContribution tn dbl :=
      funext (codeScore_eq_specContribution tn dbl)
    unfold countSuccessesL
    rw [← hfun]
    exact h
  · intro hd r _ htr
    unfold codeScore
    rw [if_pos htr, if_pos (by omega)]

/-- C4 witness: `countSuccesses([10, 7, 3], {targetNumber: 7, double: 10,
autosuccesses: 1})` matches the spec formula on a concrete valid pool. -/
theorem countSuccesses_formula_w :
    (∀ r ∈ ([10, 7, 3] : List Int), 0 < r ∧ r ≤ 10)
    ∧ countSuccessesL (([10, 7, 3] : List Int).map JVal.num) ⟨7, 10, 1⟩
        = .ok (1 + (([10, 7, 3] : List Int).map (specContribution 7 10)).sum)
    ∧ ((10 : Int) < 7 → ∀ r ∈ ([10, 7, 3] : List Int), 7 ≤ r → codeScore 7 10 r = 2) :=
  ⟨by decide, (countSuccesses_formula [10, 7, 3] 7 10 1 (by decide)).1,
    (countSuccesses_formula [10, 7, 3] 7 10 1 (by decide)).2⟩

/-- C5: `countSuccesses` is permutation-invariant on valid sequences:
permuting the input never changes the result. -/
theorem countSuccesses_perm_invariant (l1 l2 : List Int) (cfg : SucCfg)
    (hp : l1.Perm l2) (hv : ∀ r ∈ l1, 0 < r ∧ r ≤ 10) :
    countSuccessesL (l1.map JVal.num) cfg = countSuccessesL (l2.map JVal.num) cfg := by
  have hv2 : ∀ r ∈ l2, 0 < r ∧ r ≤ 10 := fun r hr => hv r (hp.mem_iff.mpr hr)
  unfold countSuccessesL
  rw [csFold_valid cfg l1 _ hv, csFold_valid cfg l2 _ hv2,
    (hp.map (codeScore cfg.targetNumber cfg.double)).sum_eq]

/-- C5 witness: swapping `[7, 10]` to `[10, 7]` leaves the count
unchanged. -/
theorem countSuccesses_perm_invariant_w :
    ([7, 10] : List Int).Perm [10, 7]
    ∧ (∀ r ∈ ([7, 10] : List Int), 0 < r ∧ r ≤ 10)
    ∧ countSuccessesL (([7, 10] : List Int).map JVal.num) ⟨7, 10, 0⟩
        = countSuccessesL (([10, 7] : List Int).map JVal.num) ⟨7, 10, 0⟩ :=
  ⟨by decide, by decide,
    countSuccesses_perm_invariant [7, 10] [10, 7] ⟨7, 10, 0⟩ (by decide) (by decide)⟩

theorem csFold_invalid (cfg : SucCfg) (l : List JVal) :
    ∀ acc : Int, (∃ v ∈ l, validFace v = false) →
      csFold cfg acc l = .error .invalidArgument := by
  induction l with
  | nil => intro acc h; simp at h
  | cons v vs ih =>
    intro acc h
    match v with
    | .bool b => simp [csFold]
    | .num r =>
      by_cases hr : r ≤ 0 ∨ 10 < r
      · simp [csFold, if_pos hr]
      · have hvs : ∃ w ∈ vs, validFace w = false := by
          rcases h with ⟨w, hw, hwf⟩
          rcases List.mem_cons.mp hw with rfl | hmem
          · exfalso
            unfold validFace at hwf
            simp at hwf
            omega
          · exact ⟨w, hmem, hwf⟩
        simp only [csFold, if_neg hr]
        exact ih _ hvs

/-- C7: `countSuccesses` fails with `InvalidArgument` whenever some
element of a sequence input is non-numeric, zero, negative, or greater
than 10 (the accepted range is the half-open `(0, 10]`); the error means
no count is produced. -/
theorem countSuccesses_invalid_element (l : List JVal) (cfg : SucCfg)
    (h : ∃ v ∈ l, validFace v = false) :
    countSuccessesL l cfg = .error .invalidArgument :=
  csFold_invalid cfg l cfg.autosuccesses h

/-- C7 witness: a face equal to 0 is rejected. -/
theorem countSuccesses_invalid_element_w :
    (∃ v ∈ [JVal.num 0], validFace v = false)
    ∧ countSuccessesL [JVal.num 0] ⟨7, 10, 0⟩ = .error .invalidArgument :=
  ⟨by decide, countSuccesses_invalid_element [JVal.num 0] ⟨7, 10, 0⟩ (by decide)⟩

theorem compact_append (a b : List JVal) : compact (a ++ b) = compact a ++ compact b := by
  simp [compact, List.filter_append]

theorem compact_compact (l : List JVal) : compact (compact l) = compact l :=
  List.filter_eq_self.mpr (fun _ hv => (List.mem_filter.mp hv).2)

theorem mem_of_mem_compact {v : JVal} {l : List JVal} (h : v ∈ compact l) : v ∈ l :=
  (List.mem_filter.mp h).1

theorem compact_map_false (l : List JVal) :
    compact (l.map (fun _ => JVal.bool false)) = [] := by
  induction l with
  | nil => rfl
  | cons _ vs ih => simp [compact, List.filter, truthy, ih]

theorem rerollPass_no_qual (g : Nat → Nat) (ra : List Int) (l : List JVal) :
    ∀ i : Nat, (∀ v ∈ l, qualifies ra v = false) →
      rerollPass g ra l i = (l.map (fun _ => JVal.bool false), i) := by
  induction l with
  | nil => intro i _; rfl
  | cons v vs ih =>
    intro i h
    have hv := h v (List.mem_cons_self v vs)
    have hvs : ∀ w ∈ vs, qualifies ra w = false := fun w hw => h w (List.mem_cons_of_mem _ hw)
    simp [rerollPass, hv, ih i hvs]

theorem rerollPass_mem (g : Nat → Nat) (ra : List Int) (l : List JVal) :
    ∀ (i : Nat) (v : JVal), v ∈ (rerollPass g ra l i).1 →
      v = JVal.bool false ∨ ∃ j, i ≤ j ∧ v = JVal.num (d10v (g j)) := by
  induction l with
  | nil => intro i v h; simp [rerollPass] at h
  | cons u us ih =>
    intro i v h
    by_cases hq : qualifies ra u = true
    · simp only [rerollPass, if_pos hq] at h
      rcases List.mem_cons.mp h with rfl | hmem
      · exact Or.inr ⟨i, le_refl i, rfl⟩
      · rcases ih (i + 1) v hmem with hfalse | ⟨j, hj, hv⟩
        · exact Or.inl hfalse
        · exact Or.inr ⟨j, by omega, hv⟩
    · simp only [rerollPass, if_neg hq] at h
      rcases List.mem_cons.mp h with rfl | hmem
      · exact Or.inl rfl
      · exact ih i v hmem

theorem rerollPass_cursor_le (g : Nat → Nat) (ra : List Int) (l : List JVal) :
    ∀ i : Nat, i ≤ (rerollPass g ra l i).2 := by
  induction l with
  | nil => intro i; exact le_refl i
  | cons u us ih =>
    intro i
    by_cases hq : qualifies ra u = true
    · simp only [rerollPass, if_pos hq]
      exact le_trans (Nat.le_succ i) (ih (i + 1))
    · simp only [rerollPass, if_neg hq]
      exact ih i

theorem rerollPass_cursor_lt (g : Nat → Nat) (ra : List Int) (l : List JVal) :
    ∀ i : Nat, (∃ v ∈ l, qualifies ra v = true) →
      i + 1 ≤ (rerollPass g ra l i).2 := by
  induction l with
  | nil => intro i h; simp at h
  | cons u us ih =>
    intro i h
    by_cases hq : qualifies ra u = true
    · simp only [rerollPass, if_pos hq]
      exact le_trans (le_refl _) (rerollPass_cursor_le g ra us (i + 1))
    · simp only [rerollPass, if_neg hq]
      apply ih i
      rcases h with ⟨v, hv, hvq⟩
      rcases List.mem_cons.mp hv with rfl | hmem
      · exact absurd hvq hq
      · exact ⟨v, hmem, hvq⟩

/-- C6: when `rerollArray` (deduplication changes nothing for
membership) covers the whole face range 1..10, `reroll` fails with
`InvalidArgument` for every input sequence, including the empty one: the
validation runs before any rerolling or the empty-input early return. -/
theorem reroll_all_faces_invalid (g : Nat → Nat) (ra : List Int) (fuel : Nat)
    (roll : List JVal) (i : Nat) (append cascade : Bool)
    (hcov : ∀ f ∈ List.range' 1 10, (f : Int) ∈ ra) :
    rerollF g ra (fuel + 1) roll i append cascade = some (.error .invalidArgument) := by
  have h : coversAll ra = true := by
    unfold coversAll
    rw [List.all_eq_true]
    intro x hx
    have hx' : x < 10 := List.mem_range.mp hx
    have hm := hcov (x + 1) (by rw [List.mem_range'_1]; omega)
    push_cast at hm
    exact List.elem_eq_true_of_mem hm
  simp [rerollF, h]

theorem rerollF_succ (g : Nat → Nat) (ra : List Int) (fuel : Nat) (roll : List JVal)
    (i : Nat) (append cascade : Bool) :
    rerollF g ra (fuel + 1) roll i append cascade =
      (if coversAll ra then some (.error .invalidArgument)
      else if compact roll = [] then some (.ok ([], i))
      else
        match (if cascade then
            rerollF g ra fuel (rerollPass g ra (compact roll) i).1
              (rerollPass g ra (compact roll) i).2 true true
          else some (.ok (rerollPass g ra (compact roll) i))) with
        | none => none
        | some (.error e) => some (.error e)
        | some (.ok (rr, i3)) =>
          some (.ok (compact ((if append then compact roll else []) ++ rr), i3))) := rfl

theorem rerollF_no_qual_isSome (g : Nat → Nat) (ra : List Int) (l : List JVal)
    (i : Nat) (append cascade : Bool) (fuel : Nat)
    (hl : ∀ v ∈ l, qualifies ra v = false) (hf : 2 ≤ fuel) :
    (rerollF g ra fuel l i append cascade).isSome = true := by
  obtain ⟨f, rfl⟩ : ∃ f, fuel = f + 2 := ⟨fuel - 2, by omega⟩
  show (rerollF g ra (f + 1 + 1) l i append cascade).isSome = true
  have hpass := rerollPass_no_qual g ra (compact l) i
    (fun v hv => hl v (mem_of_mem_compact hv))
  rw [rerollF_succ]
  by_cases hcov : coversAll ra = true
  · simp [hcov]
  · by_cases hemp : compact l = []
    · simp [hcov, hemp]
    · rw [if_neg hcov, if_neg hemp, hpass]
      cases cascade
      · simp
      · have hinner : rerollF g ra (f + 1)
            ((compact l).map (fun _ => JVal.bool false)) i true true = some (.ok ([], i)) := by
          rw [rerollF_succ, if_neg hcov, if_pos (compact_map_false _)]
        simp only [List.map_const'] at hinner
        simp [hinner]

/-- C6 witness: `rerollArray = [1..10]` is rejected even on the empty
roll. -/
theorem reroll_all_faces_invalid_w :
    (∀ f ∈ List.range' 1 10, (f : Int) ∈ ([1, 2, 3, 4, 5, 6, 7, 8, 9, 10] : List Int))
    ∧ rerollF gOnes [1, 2, 3, 4, 5, 6, 7, 8, 9, 10] 1 [] 0 true true
        = some (.error .invalidArgument) :=
  ⟨by decide,
    reroll_all_faces_invalid gOnes [1, 2, 3, 4, 5, 6, 7, 8, 9, 10] 0 [] 0 true true (by decide)⟩

theorem rerollF_eventually_isSome (g : Nat → Nat) (ra : List Int) (N : Nat)
    (hN : ∀ j, N ≤ j → ra.contains (d10v (g j)) = false) :
    ∀ (k i : Nat) (l : List JVal) (append : Bool), N ≤ i + k →
      (rerollF g ra (k + 3) l i append true).isSome = true := by
  intro k
  induction k with
  | zero =>
    intro i l append hik
    show (rerollF g ra (2 + 1) l i append true).isSome = true
    rw [rerollF_succ]
    by_cases hcov : coversAll ra = true
    · simp [hcov]
    · by_cases hemp : compact l = []
      · simp [hcov, hemp]
      · have hp1 : ∀ v ∈ (rerollPass g ra (compact l) i).1, qualifies ra v = false := by
          intro v hv
          rcases rerollPass_mem g ra (compact l) i v hv with rfl | ⟨j, hj, rfl⟩
          · rfl
          · show ra.contains (d10v (g j)) = false
            exact hN j (by omega)
        have hinner := rerollF_no_qual_isSome g ra (rerollPass g ra (compact l) i).1
          (rerollPass g ra (compact l) i).2 true true 2 hp1 (le_refl 2)
        rcases Option.isSome_iff_exists.mp hinner with ⟨x, hx⟩
        rw [if_neg hcov, if_neg hemp, hx]
        rcases x with e | ⟨rr, i3⟩ <;> simp
  | succ k ih =>
    intro i l append hik
    show (rerollF g ra ((k + 3) + 1) l i append true).isSome = true
    rw [rerollF_succ]
    by_cases hcov : coversAll ra = true
    · simp [hcov]
    · by_cases hemp : compact l = []
      · simp [hcov, hemp]
      · by_cases hq : ∃ v ∈ compact l, qualifies ra v = true
        · have hcur := rerollPass_cursor_lt g ra (compact l) i hq
          have hrec := ih (rerollPass g ra (compact l) i).2
            (rerollPass g ra (compact l) i).1 true (by omega)
          rcases Option.isSome_iff_exists.mp hrec with ⟨x, hx⟩
          rw [if_neg hcov, if_neg hemp, hx]
          rcases x with e | ⟨rr, i3⟩ <;> simp
        · have hq' : ∀ v ∈ compact l, qualifies ra v = false := by
            intro v hv
            rcases Bool.eq_false_or_eq_true (qualifies ra v) with h | h
            · exact absurd ⟨v, hv, h⟩ hq
            · exact h
          have hp1 : ∀ v ∈ (rerollPass g ra (compact l) i).1, qualifies ra v = false := by
            rw [rerollPass_no_qual g ra (compact l) i hq']
            intro v hv
            rcases List.mem_map.mp hv with ⟨w, hw, rfl⟩
            rfl
          have hinner := rerollF_no_qual_isSome g ra (rerollPass g ra (compact l) i).1
            (rerollPass g ra (compact l) i).2 true true (k + 3) hp1 (by omega)
          rcases Option.isSome_iff_exists.mp hinner with ⟨x, hx⟩
          rw [if_neg hcov, if_neg hemp, hx]
          rcases x with e | ⟨rr, i3⟩ <;> simp

theorem rerollF_gOnes_none (fuel : Nat) : ∀ i : Nat,
    rerollF gOnes [1] fuel [JVal.num 1] i true true = none := by
  induction fuel with
  | zero => intro i; rfl
  | succ fuel ih =>
    intro i
    have hcov : ¬ coversAll [1] = true := by decide
    have hemp : ¬ compact [JVal.num 1] = [] := by decide
    have hcmp : compact [JVal.num 1] = [JVal.num 1] := rfl
    have hpass : rerollPass gOnes [1] [JVal.num 1] i = ([JVal.num 1], i + 1) := rfl
    rw [rerollF_succ, if_neg hcov, if_neg hemp, hcmp, hpass]
    simp [ih (i + 1)]

/-- C8: whenever `reroll` with `append: true` returns, the output is the
compacted original sequence followed by the (possibly cascade-expanded)
fresh rerolls; and if no element of the input belongs to the reroll face
set, the output is the compacted input unchanged and no draw is
consumed. -/
theorem reroll_append_keeps_originals (g : Nat → Nat) (ra : List Int) (fuel : Nat)
    (roll : List JVal) (i : Nat) (cascade : Bool) (out : List JVal) (i2 : Nat)
    (h : rerollF g ra fuel roll i true cascade = some (.ok (out, i2))) :
    (∃ rest, out = compact roll ++ rest)
    ∧ ((∀ v ∈ roll, qualifies ra v = false) → out = compact roll ∧ i2 = i) := by
  match fuel with
  | 0 => exact absurd h (by simp [rerollF])
  | fuel + 1 =>
    rw [rerollF_succ] at h
    by_cases hcov : coversAll ra = true
    · rw [if_pos hcov] at h
      exact absurd h (by simp)
    · rw [if_neg hcov] at h
      by_cases hemp : compact roll = []
      · rw [if_pos hemp] at h
        simp only [Option.some.injEq, Except.ok.injEq, Prod.mk.injEq] at h
        refine ⟨⟨[], by rw [← h.1, hemp]; rfl⟩, fun _ => ⟨by rw [← h.1, hemp], h.2.symm⟩⟩
      · rw [if_neg hemp] at h
        rcases hsc : (if cascade then
              rerollF g ra fuel (rerollPass g ra (compact roll) i).1
                (rerollPass g ra (compact roll) i).2 true true
            else some (.ok (rerollPass g ra (compact roll) i)))
          with _ | x
        · rw [hsc] at h
          exact absurd h (by simp)
        · rw [hsc] at h
          rcases x with e | ⟨rr, i3⟩
          · exact absurd h (by simp)
          · simp only [if_pos rfl, Option.some.injEq, Except.ok.injEq, Prod.mk.injEq] at h
            have hout : out = compact (compact roll ++ rr) := h.1.symm
            have hi2 : i2 = i3 := h.2.symm
            constructor
            · exact ⟨compact rr, by rw [hout, compact_append, compact_compact]⟩
            · intro hnq
              have hq' : ∀ v ∈ compact roll, qualifies ra v = false :=
                fun v hv => hnq v (mem_of_mem_compact hv)
              have hpass := rerollPass_no_qual g ra (compact roll) i hq'
              rw [hpass] at hsc
              cases cascade with
              | false =>
                simp only [Bool.false_eq_true, if_false, Option.some.injEq,
                  Except.ok.injEq, Prod.mk.injEq] at hsc
                refine ⟨?_, by rw [hi2, ← hsc.2]⟩
                rw [hout, ← hsc.1, compact_append, compact_compact, compact_map_false,
                  List.append_nil]
              | true =>
                simp only [eq_self_iff_true, if_true] at hsc
                cases fuel with
                | zero => exact absurd hsc (by simp [rerollF])
                | succ f =>
                  rw [rerollF_succ, if_neg hcov, if_pos (compact_map_false _)] at hsc
                  simp only [Option.some.injEq, Except.ok.injEq, Prod.mk.injEq] at hsc
                  refine ⟨?_, by rw [hi2, ← hsc.2]⟩
                  rw [hout, ← hsc.1, List.append_nil, compact_compact]

/-- C8 witness: `reroll([5], {rerollArray: [1], append: true})` returns
`[5]` unchanged. -/
theorem reroll_append_keeps_originals_w :
    rerollF gOnes [1] 3 [JVal.num 5] 0 true true = some (.ok ([JVal.num 5], 0))
    ∧ (∃ rest, [JVal.num 5] = compact [JVal.num 5] ++ rest)
    ∧ ((∀ v ∈ [JVal.num 5], qualifies [1] v = false)
        → [JVal.num 5] = compact [JVal.num 5] ∧ 0 = 0) :=
  ⟨rfl,
    (reroll_append_keeps_originals gOnes [1] 3 [JVal.num 5] 0 true [JVal.num 5] 0 rfl).1,
    (reroll_append_keeps_originals gOnes [1] 3 [JVal.num 5] 0 true [JVal.num 5] 0 rfl).2⟩

/-- C9 counterexample: the reroll face set {1} is a strict subset of the
faces 1..10 (the validation accepts it), the input pool [1] is valid,
cascade is on, yet on the draw stream whose every d10 call lands on face
1 the recursive reroll computation never returns: no fuel bound makes
the embedding terminate, refuting unconditional termination. -/
theorem reroll_cascade_nontermination_cex :
    coversAll [1] = false
    ∧ ¬ rerollTerminates gOnes [1] [JVal.num 1] 0 true true := by
  refine ⟨rfl, ?_⟩
  rintro ⟨fuel, hf⟩
  rw [rerollF_gOnes_none fuel 0] at hf
  simp at hf

/-- C9 amended: with cascade on, the recursive reroll computation
terminates for every draw stream of the uniform source that from some
position `N` on yields only faces outside the reroll set (each recursive
call's input is exactly the freshly drawn dice of the previous pass, so
once no drawn die qualifies the recursion bottoms out); termination for
every draw stream fails, see the counterexample. -/
theorem reroll_cascade_terminates (g : Nat → Nat) (ra : List Int) (roll : List JVal)
    (i : Nat) (append : Bool) (N : Nat)
    (_hsub : coversAll ra = false)
    (hN : ∀ j, N ≤ j → ra.contains (d10v (g j)) = false) :
    rerollTerminates g ra roll i append true :=
  ⟨(N - i) + 3, rerollF_eventually_isSome g ra N hN (N - i) i roll append (by omega)⟩

/-- C9 witness: with reroll set {1} (a strict subset) and the draw
stream that always yields face 2, the cascade on the pool [1]
terminates. -/
theorem reroll_cascade_terminates_w :
    coversAll [1] = false
    ∧ (∀ j : Nat, 0 ≤ j → List.contains [1] (d10v (gTwos j)) = false)
    ∧ rerollTerminates gTwos [1] [JVal.num 1] 0 true true :=
  ⟨rfl, fun _ _ => rfl,
    reroll_cascade_terminates gTwos [1] [JVal.num 1] 0 true 0 rfl (fun _ _ => rfl)⟩

/-- C1 (partly refuted): every d10 draw returns a value in [1, 9], so
every returned value lies in [1, 10], but the face 10 is unreachable for
every draw of the uniform source: `sample(range(1, 10))` draws from
{1,...,9} because lodash `range` excludes its upper bound, contradicting
"uniformly distributed over {1,...,10} inclusive". -/
theorem d10_range_and_ten_unreachable :
    (∀ d : Nat, ∃ v : Int, d10E d = .ok v ∧ 1 ≤ v ∧ v ≤ 9)
    ∧ ∀ d : Nat, ¬ d10E d = .ok 10 := by
  constructor
  · intro d
    refine ⟨1 + ((d % 9 : Nat) : Int), d10E_eq_ok d, by omega, ?_⟩
    have h9 : d % 9 < 9 := Nat.mod_lt _ (by decide)
    omega
  · intro d h
    rw [d10E_eq_ok d] at h
    simp only [Except.ok.injEq] at h
    have h9 : d % 9 < 9 := Nat.mod_lt _ (by decide)
    omega

/-- C10: the InvariantViolation branch of d10 is unreachable: for every
draw of the underlying uniform source over its non-empty range, d10
returns a value normally and never throws the nil-value error. -/
theorem d10_never_invariant_violation :
    ∀ d : Nat, (∀ e : RErr, ¬ d10E d = .error e) ∧ ∃ v, d10E d = .ok v := by
  intro d
  rw [d10E_eq_ok d]
  exact ⟨fun e h => Except.noConfusion h, ⟨_, rfl⟩⟩

theorem rollE_ok_inv (g : Nat → Nat) (fuel : Nat) (numDice : Int) (cfg : RollCfg)
    (res : RollResult) (h : rollE g fuel numDice cfg = some (.ok res)) :
    ∃ pool i1 result i2 s,
      rollDiceE g 0 numDice = .ok (pool, i1)
      ∧ rerollF g cfg.rerollArray fuel (pool.map JVal.num) i1 true cfg.cascade
          = some (.ok (result, i2))
      ∧ countSuccessesL (pool.map JVal.num)
          ⟨cfg.targetNumber, cfg.double, cfg.autosuccesses⟩ = .ok s
      ∧ res = ⟨result, result.length, s, numDice,
          (s == 0) && result.contains (JVal.num 1)⟩ := by
  unfold rollE at h
  split at h
  · exact absurd h (by simp)
  · next pool i1 heq =>
    split at h
    · exact absurd h (by simp)
    · exact absurd h (by simp)
    · next result i2 heq2 =>
      split at h
      · exact absurd h (by simp)
      · next s heq3 =>
        simp only [Option.some.injEq, Except.ok.injEq] at h
        exact ⟨pool, i1, result, i2, s, heq, heq2, heq3, h.symm⟩

/-- C2 amended: whenever `roll` returns, its botch flag is true exactly
when successes equals 0 and the post-reroll `result` (not the raw pool)
contains a die showing 1; since `append` is always true, raw-pool dice
are part of `result`, but freshly rerolled dice showing 1 also trigger a
botch. -/
theorem roll_botch_iff_post_result (g : Nat → Nat) (fuel : Nat) (numDice : Int)
    (cfg : RollCfg) (res : RollResult) (h : rollE g fuel numDice cfg = some (.ok res)) :
    res.botch = true ↔ (res.successes = 0 ∧ JVal.num 1 ∈ res.result) := by
  rcases rollE_ok_inv g fuel numDice cfg res h with
    ⟨pool, i1, result, i2, s, _, _, _, rfl⟩
  simp [Bool.and_eq_true, beq_iff_eq, List.elem_iff]

/-- C2 counterexample: one die, reroll set {2}, draws giving the raw
pool [2] (which contains no 1) and a fresh cascade reroll landing on 1:
`roll` reports successes = 0 and botch = true, because the code tests
`result.includes(1)` on the post-reroll sequence; the claim "botch iff
successes = 0 and the raw pre-reroll pool contains a 1" is false here. -/
theorem roll_botch_raw_pool_cex :
    rollDiceE gTwoThenOnes 0 1 = .ok ([2], 1)
    ∧ ¬ (JVal.num 1 ∈ ([(2 : Int)].map JVal.num))
    ∧ rollE gTwoThenOnes 10 1 ⟨7, 10, [2], true, 0⟩
        = some (.ok ⟨[JVal.num 2, JVal.num 1], 2, 0, 1, true⟩) :=
  ⟨rfl, by decide, rfl⟩

/-- C2 witness: a single-die botching roll with no rerolls. -/
theorem roll_botch_iff_post_result_w :
    rollE gOnes 5 1 ⟨7, 10, [], true, 0⟩
        = some (.ok ⟨[JVal.num 1], 1, 0, 1, true⟩)
    ∧ ((⟨[JVal.num 1], 1, 0, 1, true⟩ : RollResult).botch = true
        ↔ ((⟨[JVal.num 1], 1, 0, 1, true⟩ : RollResult).successes = 0
            ∧ JVal.num 1 ∈ (⟨[JVal.num 1], 1, 0, 1, true⟩ : RollResult).result)) :=
  ⟨rfl, roll_botch_iff_post_result gOnes 5 1 ⟨7, 10, [], true, 0⟩ _ rfl⟩

/-- C3: whenever `roll` returns, its successes field equals
`countSuccesses` applied to the original pre-reroll pool `theRoll` with
`{targetNumber, double, autosuccesses}`; rerolled replacement dice in
the post-reroll result never contribute to successes. -/
theorem roll_successes_from_raw_pool (g : Nat → Nat) (fuel : Nat) (numDice : Int)
    (cfg : RollCfg) (res : RollResult) (pool : List Int) (i1 : Nat)
    (h : rollE g fuel numDice cfg = some (.ok res))
    (hpool : rollDiceE g 0 numDice = .ok (pool, i1)) :
    countSuccessesL (pool.map JVal.num)
      ⟨cfg.targetNumber, cfg.double, cfg.autosuccesses⟩ = .ok res.successes := by
  rcases rollE_ok_inv g fuel numDice cfg res h with
    ⟨pool', i1', result, i2, s, hrd, _, hcs, rfl⟩
  rw [hpool] at hrd
  simp only [Except.ok.injEq, Prod.mk.injEq] at hrd
  rw [hrd.1]
  exact hcs

/-- C3 witness: with the raw pool [1] (successes 0) the successes field
comes from the raw pool. -/
theorem roll_successes_from_raw_pool_w :
    rollE gOnes 5 1 ⟨7, 10, [], true, 0⟩ = some (.ok ⟨[JVal.num 1], 1, 0, 1, true⟩)
    ∧ rollDiceE gOnes 0 1 = .ok ([1], 1)
    ∧ countSuccessesL ([(1 : Int)].map JVal.num) ⟨7, 10, 0⟩
        = .ok (⟨[JVal.num 1], 1, 0, 1, true⟩ : RollResult).successes :=
  ⟨rfl, rfl,
    roll_successes_from_raw_pool gOnes 5 1 ⟨7, 10, [], true, 0⟩ _ [1] 1 rfl rfl⟩

end Plentimon
